import Mathlib

/-!
CocosDenshion, `SimpleAudioEngine.h`

A shallow embedding of the inline code of `CocosDenshion/include/SimpleAudioEngine.h`:
the string hash `getHashCodeByString`, the type tag `getClassTypeInfo`, and the
inline overloads of `playBackgroundMusic`, `stopBackgroundMusic` and `playEffect`
that forward to the operations the header only declares.

Conventions of the embedding.

* Memory reached through a `const char *` is a `List Byte`: the bytes stored from
  the pointer onwards.  The string ends at the first NUL byte, or at the end of
  the list when the list holds no NUL (the terminator is then the byte that
  follows the modelled region).
* `unsigned int` is 32 bits wide: values are naturals reduced `% 2 ^ 32`.
* Whether plain `char` is signed is left to the platform by the language, so it
  is a parameter `signedChar` of every definition that reads a `char`.
* The width of `long` (32 or 64 bits) is likewise a parameter `longBits`.
* Operations of the engine that the header declares without a body are fields of
  a `Backend`, over an arbitrary type of engine states.
-/

namespace CocosDenshion

/-! The string hash -/

/-- One byte of memory, read as an `unsigned char`. -/
abbrev Byte := Fin 256

/-- `strlen` of the C library: the number of bytes that precede the first NUL. -/
def strlen : List Byte → Nat
  | [] => 0
  | c :: cs => if c = 0 then 0 else strlen cs + 1

/-- Integer promotion of a `char` read from memory, as done for the argument
`*key` of `toupper`: where `char` is signed, bytes from 128 on are negative. -/
def charToInt (signedChar : Bool) (c : Byte) : Int :=
  if signedChar = true ∧ 128 ≤ c.val then (c.val : Int) - 256 else (c.val : Int)

/-- `toupper` of the C library in the "C" locale: the letters `a` to `z` (97 to 122)
are moved to `A` to `Z`, every other value is returned as it is.  For the negative
arguments a signed `char` produces, the C standard fixes the result only for `EOF`; as
the usual libraries do, the model returns them as they are too, and the conversion to
`unsigned char` that follows then gives back the byte that was read. -/
def toupper (c : Int) : Int :=
  if 97 ≤ c ∧ c ≤ 122 then c - 32 else c

/-- The conversion `(unsigned int) (unsigned char) x` of an `int`. -/
def toUnsignedChar (x : Int) : Nat :=
  (x % 256).toNat

/-- Body of the loop of `getHashCodeByString` for the byte `c` at `*key`:
`hash *= 16777619; hash ^= (unsigned int) (unsigned char) toupper(*key);`. -/
def hashStep (signedChar : Bool) (hash : Nat) (c : Byte) : Nat :=
  ((hash * 16777619) % 2 ^ 32) ^^^ toUnsignedChar (toupper (charToInt signedChar c))

/-- The loop `for (...; key < end; key++)` of `getHashCodeByString`, run over the
bytes stored in `[key, end)`, starting from the value `hash`. -/
def hashLoop (signedChar : Bool) (hash : Nat) : List Byte → Nat
  | [] => hash
  | c :: cs => hashLoop signedChar (hashStep signedChar hash c) cs

/-- The function `getHashCodeByString`.  The length is stored in an `unsigned int`,
hence reduced modulo `2 ^ 32`; `end` is `key + len`; the loop starts from `hash = 0`. -/
def getHashCodeByString (signedChar : Bool) (key : List Byte) : Nat :=
  let len := strlen key % 2 ^ 32
  hashLoop signedChar 0 (key.take len)

/-! The type tag -/

/-- Conversion of an `unsigned int` to `long` at a `return`: the value reduced into
the range of a two's complement integer of `longBits` bits. -/
def toLong (longBits : Nat) (x : Nat) : Int :=
  if x % 2 ^ longBits < 2 ^ (longBits - 1) then ((x % 2 ^ longBits : Nat) : Int)
  else ((x % 2 ^ longBits : Nat) : Int) - ((2 ^ longBits : Nat) : Int)

/-- The method `SimpleAudioEngine::getClassTypeInfo`.  `typeName` holds the string
returned by `typeid(CocosDenshion::SimpleAudioEngine).name()`, which the compiler
chooses; `self` is the engine the method is called on. -/
def SimpleAudioEngine.getClassTypeInfo {σ : Type} (signedChar : Bool) (longBits : Nat)
    (typeName : List Byte) (_self : σ) : Int :=
  toLong longBits (getHashCodeByString signedChar typeName)

/-- The name `N13CocosDenshion17SimpleAudioEngineE`, which the Itanium C++ ABI gives to
the class, with its NUL. -/
def itaniumTypeName : List Byte :=
  [78, 49, 51, 67, 111, 99, 111, 115, 68, 101, 110, 115, 104, 105, 111, 110, 49, 55, 83,
   105, 109, 112, 108, 101, 65, 117, 100, 105, 111, 69, 110, 103, 105, 110, 101, 69, 0]

/-! The engine and its inline overloads -/

/-- A C `float` argument, given by the number it denotes.  The header only passes
the literals `1.0` and `0.0` along, both of which a `float` holds exactly. -/
abbrev CFloat := ℚ

/-- The operations of `SimpleAudioEngine` that the inline overloads call and that
the header declares without a body; a platform backend defines them.  `σ` is the
state of the engine (and of the audio device behind it), threaded through every
call; `playEffect` also returns the sound id. -/
structure Backend (σ : Type) where
  /-- The declaration `void playBackgroundMusic(const char* pszFilePath, bool bLoop)`. -/
  playBackgroundMusic : List Byte → Bool → σ → σ
  /-- The declaration `void stopBackgroundMusic(bool bReleaseData)`. -/
  stopBackgroundMusic : Bool → σ → σ
  /-- The declaration `unsigned int playEffect(const char* pszFilePath, bool bLoop,
  float pitch, float pan, float gain)`. -/
  playEffect : List Byte → Bool → CFloat → CFloat → CFloat → σ → Nat × σ

/-- The overload `void playBackgroundMusic(const char* pszFilePath)`. -/
def SimpleAudioEngine.playBackgroundMusic {σ : Type} (be : Backend σ)
    (pszFilePath : List Byte) (self : σ) : σ :=
  be.playBackgroundMusic pszFilePath false self

/-- The overload `void stopBackgroundMusic()`. -/
def SimpleAudioEngine.stopBackgroundMusic {σ : Type} (be : Backend σ) (self : σ) : σ :=
  be.stopBackgroundMusic false self

/-- The overload `unsigned int playEffect(const char* pszFilePath, bool bLoop)`. -/
def SimpleAudioEngine.playEffect2 {σ : Type} (be : Backend σ)
    (pszFilePath : List Byte) (bLoop : Bool) (self : σ) : Nat × σ :=
  be.playEffect pszFilePath bLoop 1.0 0.0 1.0 self

/-- The overload `unsigned int playEffect(const char* pszFilePath)`. -/
def SimpleAudioEngine.playEffect1 {σ : Type} (be : Backend σ)
    (pszFilePath : List Byte) (self : σ) : Nat × σ :=
  SimpleAudioEngine.playEffect2 be pszFilePath false self

/-- Modelled from the spec: the body of `SimpleAudioEngine::willPlayBackgroundMusic`
(the spec's `canPlayMusic`) is missing, the header only declares it.  The spec says the
probe "always reports true", and the header remarks "Returns currently always true". -/
def SimpleAudioEngine.willPlayBackgroundMusic {σ : Type} (_self : σ) : Bool :=
  true

/-- The engine state reached from `self` after a sequence of operations, each given
by its effect on the state. -/
def runOperations {σ : Type} (ops : List (σ → σ)) (self : σ) : σ :=
  ops.foldl (fun s op => op s) self

/-! A backend that records its calls -/

/-- One call received by a backend, with its arguments. -/
inductive Call where
  | playBackgroundMusic (pszFilePath : List Byte) (bLoop : Bool)
  | stopBackgroundMusic (bReleaseData : Bool)
  | playEffect (pszFilePath : List Byte) (bLoop : Bool) (pitch pan gain : CFloat)
  deriving DecidableEq

/-- The backend whose state is the list of calls made so far, oldest first.  It
hands out the number of earlier calls as sound id. -/
def recorder : Backend (List Call) where
  playBackgroundMusic := fun p l log => log ++ [Call.playBackgroundMusic p l]
  stopBackgroundMusic := fun r log => log ++ [Call.stopBackgroundMusic r]
  playEffect := fun p l pitch pan gain log =>
    (log.length, log ++ [Call.playEffect p l pitch pan gain])

/-! Notions used to state the properties -/

/-- The bytes of the key stored at `key`: those that precede the first NUL. -/
def keyBytes (key : List Byte) : List Byte :=
  key.takeWhile (fun c => decide (c ≠ 0))

/-- A byte upper-cased: `a` to `z` become `A` to `Z`, other bytes stay. -/
def upperByte (c : Byte) : Byte :=
  if 97 ≤ c.val ∧ c.val ≤ 122 then ⟨c.val - 32, lt_of_le_of_lt (Nat.sub_le _ _) c.isLt⟩ else c

/-- Two bytes are equal, or are the same ASCII letter in different case: one of
them is an upper-case letter `A` to `Z` (65 to 90) and the other lies 32 above it. -/
def sameLetter (a b : Byte) : Prop :=
  a = b ∨ (65 ≤ a.val ∧ a.val ≤ 90 ∧ b.val = a.val + 32) ∨
    (65 ≤ b.val ∧ b.val ≤ 90 ∧ a.val = b.val + 32)

instance (a b : Byte) : Decidable (sameLetter a b) := by
  unfold sameLetter
  infer_instance

/-- The hash as the spec words it: the left-to-right fold over the bytes that starts
from 0 and at each byte `c` replaces `h` by `((h * 16777619) mod 2^32) XOR toupper(c)`,
`toupper(c)` being the byte upper-cased, as an unsigned 8-bit value. -/
def upperFold (bytes : List Byte) : Nat :=
  bytes.foldl (fun h c => ((h * 16777619) % 2 ^ 32) ^^^ (upperByte c).val) 0

/-! Lemmas on the hash -/

theorem toUnsignedChar_toupper (signedChar : Bool) (c : Byte) :
    toUnsignedChar (toupper (charToInt signedChar c)) = (upperByte c).val := by
  have hc := c.isLt
  unfold toUnsignedChar toupper charToInt upperByte
  cases signedChar <;> split_ifs <;> simp at * <;> omega

theorem hashStep_eq (signedChar : Bool) (h : Nat) (c : Byte) :
    hashStep signedChar h c = ((h * 16777619) % 2 ^ 32) ^^^ (upperByte c).val := by
  unfold hashStep
  rw [toUnsignedChar_toupper]

theorem hashStep_lt (signedChar : Bool) (h : Nat) (c : Byte) :
    hashStep signedChar h c < 2 ^ 32 := by
  rw [hashStep_eq]
  exact Nat.xor_lt_two_pow (Nat.mod_lt _ (by norm_num))
    (lt_trans (upperByte c).isLt (by norm_num))

theorem hashLoop_lt (signedChar : Bool) (l : List Byte) :
    ∀ h : Nat, h < 2 ^ 32 → hashLoop signedChar h l < 2 ^ 32 := by
  induction l with
  | nil => intro h hh; exact hh
  | cons c cs ih => intro h _; exact ih _ (hashStep_lt signedChar h c)

theorem hashLoop_append (signedChar : Bool) (l₁ l₂ : List Byte) :
    ∀ h : Nat, hashLoop signedChar h (l₁ ++ l₂)
      = hashLoop signedChar (hashLoop signedChar h l₁) l₂ := by
  induction l₁ with
  | nil => intro h; rfl
  | cons c cs ih => intro h; exact ih _

theorem hashLoop_eq_foldl (signedChar : Bool) (l : List Byte) :
    ∀ h : Nat, hashLoop signedChar h l
      = l.foldl (fun h c => ((h * 16777619) % 2 ^ 32) ^^^ (upperByte c).val) h := by
  induction l with
  | nil => intro h; rfl
  | cons c cs ih =>
    intro h
    show hashLoop signedChar (hashStep signedChar h c) cs = _
    rw [ih, hashStep_eq]
    rfl

theorem take_strlen (key : List Byte) : key.take (strlen key) = keyBytes key := by
  induction key with
  | nil => rfl
  | cons c cs ih =>
    by_cases hc : c = 0
    · simp [strlen, keyBytes, hc]
    · simp only [strlen, keyBytes, hc, if_false, List.take_succ_cons, ne_eq, not_false_eq_true,
        decide_True, List.takeWhile_cons_of_pos]
      exact congrArg _ ih

theorem strlen_eq_length (key : List Byte) : strlen key = (keyBytes key).length := by
  induction key with
  | nil => rfl
  | cons c cs ih =>
    by_cases hc : c = 0
    · simp [strlen, keyBytes, hc]
    · simp only [strlen, keyBytes, hc, if_false, ne_eq, not_false_eq_true, decide_True,
        List.takeWhile_cons_of_pos, List.length_cons]
      exact congrArg _ ih

/-- The hash only reads the bytes of the key, and of those the first `len`. -/
theorem getHashCodeByString_eq (signedChar : Bool) (key : List Byte) :
    getHashCodeByString signedChar key
      = hashLoop signedChar 0 ((keyBytes key).take ((keyBytes key).length % 2 ^ 32)) := by
  unfold getHashCodeByString
  simp only []
  rw [← strlen_eq_length, ← take_strlen key, List.take_take,
    min_eq_left (Nat.mod_le _ _)]

theorem getHashCodeByString_of_lt (signedChar : Bool) (key : List Byte)
    (hlen : strlen key < 2 ^ 32) :
    getHashCodeByString signedChar key = hashLoop signedChar 0 (keyBytes key) := by
  rw [getHashCodeByString_eq, ← strlen_eq_length, Nat.mod_eq_of_lt hlen, strlen_eq_length,
    List.take_length]

theorem getHashCodeByString_lt (signedChar : Bool) (key : List Byte) :
    getHashCodeByString signedChar key < 2 ^ 32 :=
  hashLoop_lt signedChar _ 0 (by norm_num)

/-! Lemmas on letter case -/

theorem upperByte_eq_of_sameLetter {a b : Byte} (h : sameLetter a b) :
    upperByte a = upperByte b := by
  have ha := a.isLt
  have hb := b.isLt
  unfold sameLetter at h
  rcases h with h | h | h
  · rw [h]
  · unfold upperByte
    apply Fin.ext
    split_ifs <;> (try simp only []) <;> omega
  · unfold upperByte
    apply Fin.ext
    split_ifs <;> (try simp only []) <;> omega

theorem sameLetter_upperByte (c : Byte) : sameLetter c (upperByte c) := by
  have hc := c.isLt
  unfold sameLetter upperByte
  split_ifs with h
  · right; right
    simp
    omega
  · left; rfl

theorem eq_zero_iff_of_sameLetter {a b : Byte} (h : sameLetter a b) : a = 0 ↔ b = 0 := by
  unfold sameLetter at h
  rcases h with h | h | h
  · rw [h]
  · constructor <;> intro h0 <;> rw [h0] at h <;> simp at h
  · constructor <;> intro h0 <;> rw [h0] at h <;> simp at h

theorem keyBytes_sameLetter {k₁ k₂ : List Byte} (h : List.Forall₂ sameLetter k₁ k₂) :
    List.Forall₂ sameLetter (keyBytes k₁) (keyBytes k₂) := by
  induction h with
  | nil => exact List.Forall₂.nil
  | @cons a b l₁ l₂ hab _ ih =>
    have h0 := eq_zero_iff_of_sameLetter hab
    by_cases ha : a = 0
    · have hb : b = 0 := h0.mp ha
      simp [keyBytes, ha, hb]
    · have hb : ¬ b = 0 := fun hb => ha (h0.mpr hb)
      simp only [keyBytes, ne_eq, ha, hb, not_false_eq_true, decide_True,
        List.takeWhile_cons_of_pos]
      exact List.Forall₂.cons hab ih

theorem map_upperByte_sameLetter (l : List Byte) :
    List.Forall₂ sameLetter l (l.map upperByte) := by
  induction l with
  | nil => exact List.Forall₂.nil
  | cons c cs ih => exact List.Forall₂.cons (sameLetter_upperByte c) ih

theorem hashStep_congr (signedChar : Bool) (h : Nat) {a b : Byte}
    (hab : upperByte a = upperByte b) :
    hashStep signedChar h a = hashStep signedChar h b := by
  rw [hashStep_eq, hashStep_eq, hab]

theorem hashLoop_congr (signedChar : Bool) {l₁ l₂ : List Byte}
    (h : List.Forall₂ sameLetter l₁ l₂) :
    ∀ x : Nat, hashLoop signedChar x l₁ = hashLoop signedChar x l₂ := by
  induction h with
  | nil => intro x; rfl
  | @cons a b l₁ l₂ hab _ ih =>
    intro x
    show hashLoop signedChar (hashStep signedChar x a) l₁
      = hashLoop signedChar (hashStep signedChar x b) l₂
    rw [hashStep_congr signedChar x (upperByte_eq_of_sameLetter hab)]
    exact ih _

/-- Keys whose bytes agree up to letter case have the same hash. -/
theorem getHashCodeByString_congr (signedChar : Bool) {k₁ k₂ : List Byte}
    (h : List.Forall₂ sameLetter (keyBytes k₁) (keyBytes k₂)) :
    getHashCodeByString signedChar k₁ = getHashCodeByString signedChar k₂ := by
  rw [getHashCodeByString_eq, getHashCodeByString_eq, h.length_eq]
  exact hashLoop_congr signedChar (List.forall₂_take _ h) 0

/-! Lemmas on injectivity of a step -/

theorem mul_prime_inverse (x : Nat) :
    (x * 16777619 % 4294967296) * 899433627 % 4294967296 = x % 4294967296 := by
  rw [Nat.mod_mul_mod, Nat.mul_assoc, Nat.mul_mod x,
    show 16777619 * 899433627 % 4294967296 = 1 from by norm_num]
  simp

theorem mul_prime_injective {a b : Nat} (ha : a < 2 ^ 32) (hb : b < 2 ^ 32)
    (h : a * 16777619 % 2 ^ 32 = b * 16777619 % 2 ^ 32) : a = b := by
  norm_num at ha hb h
  have h1 := mul_prime_inverse a
  have h2 := mul_prime_inverse b
  rw [h, h2, Nat.mod_eq_of_lt ha, Nat.mod_eq_of_lt hb] at h1
  exact h1.symm

theorem hashStep_injective (signedChar : Bool) {x y : Nat} (c : Byte)
    (hx : x < 2 ^ 32) (hy : y < 2 ^ 32)
    (h : hashStep signedChar x c = hashStep signedChar y c) : x = y := by
  rw [hashStep_eq, hashStep_eq] at h
  exact mul_prime_injective hx hy (Nat.xor_left_injective h)

theorem hashStep_ne_of_upperByte_ne (signedChar : Bool) (x : Nat) {a b : Byte}
    (hab : upperByte a ≠ upperByte b) :
    hashStep signedChar x a ≠ hashStep signedChar x b := by
  rw [hashStep_eq, hashStep_eq]
  intro h
  exact hab (Fin.ext (Nat.xor_right_injective h))

theorem hashLoop_ne (signedChar : Bool) {l₁ l₂ : List Byte}
    (h : List.Forall₂ sameLetter l₁ l₂) :
    ∀ x y : Nat, x < 2 ^ 32 → y < 2 ^ 32 → x ≠ y →
      hashLoop signedChar x l₁ ≠ hashLoop signedChar y l₂ := by
  induction h with
  | nil => intro x y _ _ hxy; exact hxy
  | @cons a b l₁ l₂ hab _ ih =>
    intro x y hx hy hxy
    show hashLoop signedChar (hashStep signedChar x a) l₁
      ≠ hashLoop signedChar (hashStep signedChar y b) l₂
    apply ih _ _ (hashStep_lt _ _ _) (hashStep_lt _ _ _)
    rw [hashStep_congr signedChar x (upperByte_eq_of_sameLetter hab)]
    exact fun h => hxy (hashStep_injective signedChar b hx hy h)

/-! Lemmas on the conversion to `long` -/

theorem toLong_emod (longBits x : Nat) (hx : x < 2 ^ longBits) :
    toLong longBits x % ((2 ^ longBits : Nat) : Int) = (x : Int) := by
  unfold toLong
  rw [Nat.mod_eq_of_lt hx]
  split_ifs
  · exact Int.emod_eq_of_lt (Int.ofNat_nonneg x) (Int.ofNat_lt.mpr hx)
  · rw [Int.sub_emod, Int.emod_self, sub_zero, Int.emod_emod_of_dvd _ (dvd_refl _)]
    exact Int.emod_eq_of_lt (Int.ofNat_nonneg x) (Int.ofNat_lt.mpr hx)

theorem toLong_range (longBits x : Nat) (hbits : 1 ≤ longBits) :
    -((2 ^ (longBits - 1) : Nat) : Int) ≤ toLong longBits x ∧
      toLong longBits x < ((2 ^ (longBits - 1) : Nat) : Int) := by
  have hp : 2 ^ longBits = 2 * 2 ^ (longBits - 1) := by
    rw [← pow_succ']
    congr 1
    omega
  have hm : x % 2 ^ longBits < 2 ^ longBits := Nat.mod_lt _ (by positivity)
  unfold toLong
  generalize x % 2 ^ longBits = r at hm ⊢
  generalize 2 ^ (longBits - 1) = q at hp hm ⊢
  rw [hp] at hm ⊢
  split_ifs <;> omega

theorem toLong_of_lt (longBits x : Nat) (hx : x < 2 ^ (longBits - 1)) :
    toLong longBits x = (x : Int) := by
  have hle : 2 ^ (longBits - 1) ≤ 2 ^ longBits :=
    Nat.pow_le_pow_right (by norm_num) (Nat.sub_le _ _)
  unfold toLong
  rw [Nat.mod_eq_of_lt (lt_of_lt_of_le hx hle), if_pos hx]

/-- A name whose hash is `2 ^ 31` or more: returned as a `long` of 32 bits the value is
negative, returned as a `long` of 64 bits it is the hash. -/
theorem getClassTypeInfo_example :
    getHashCodeByString false [200, 255, 90, 123, 0] = 3062182998 ∧
      SimpleAudioEngine.getClassTypeInfo false 32 [200, 255, 90, 123, 0] (0 : Nat)
        = -1232784298 ∧
      SimpleAudioEngine.getClassTypeInfo false 64 [200, 255, 90, 123, 0] (0 : Nat)
        = 3062182998 := by
  decide

/-! The properties of the hash -/

/-- Claim C1: `getHashCodeByString` is case-insensitive.  Two keys of the same length
whose bytes at each position are equal or the same ASCII letter in different case
have the same hash; in particular a key and its upper-cased form have the same hash. -/
theorem getHashCodeByString_case_insensitive (signedChar : Bool) (k₁ k₂ : List Byte)
    (h : List.Forall₂ sameLetter (keyBytes k₁) (keyBytes k₂)) :
    getHashCodeByString signedChar k₁ = getHashCodeByString signedChar k₂ ∧
      getHashCodeByString signedChar k₁
        = getHashCodeByString signedChar (k₁.map upperByte) :=
  ⟨getHashCodeByString_congr signedChar h,
    getHashCodeByString_congr signedChar (keyBytes_sameLetter (map_upperByte_sameLetter k₁))⟩

/-- The keys `aB.w` and `Ab.W` as an instance of claim C1. -/
theorem getHashCodeByString_case_insensitive_witness :
    List.Forall₂ sameLetter (keyBytes [97, 66, 46, 119, 0]) (keyBytes [65, 98, 46, 87, 0]) ∧
      (getHashCodeByString true [97, 66, 46, 119, 0]
          = getHashCodeByString true [65, 98, 46, 87, 0] ∧
        getHashCodeByString true [97, 66, 46, 119, 0]
          = getHashCodeByString true (List.map upperByte [97, 66, 46, 119, 0])) :=
  have hw : List.Forall₂ sameLetter (keyBytes [97, 66, 46, 119, 0])
      (keyBytes [65, 98, 46, 87, 0]) :=
    List.Forall₂.cons (by decide) (List.Forall₂.cons (by decide)
      (List.Forall₂.cons (by decide) (List.Forall₂.cons (by decide) List.Forall₂.nil)))
  ⟨hw, getHashCodeByString_case_insensitive true _ _ hw⟩

/-- Claim C7: for a key of fewer than `2 ^ 32` bytes, `getHashCodeByString` is the
left-to-right fold over the bytes of the key that starts from 0 and replaces `h` by
`((h * 16777619) mod 2 ^ 32) XOR toupper(c)` at each byte `c`; the result is 0 for the
empty key and lies below `2 ^ 32`. -/
theorem getHashCodeByString_eq_upperFold (signedChar : Bool) (key : List Byte)
    (hlen : strlen key < 2 ^ 32) :
    getHashCodeByString signedChar key = upperFold (keyBytes key) ∧
      (keyBytes key = [] → getHashCodeByString signedChar key = 0) ∧
      getHashCodeByString signedChar key < 2 ^ 32 := by
  refine ⟨?_, ?_, getHashCodeByString_lt signedChar key⟩
  · rw [getHashCodeByString_of_lt signedChar key hlen, hashLoop_eq_foldl]
    rfl
  · intro hk
    rw [getHashCodeByString_of_lt signedChar key hlen, hk]
    rfl

/-- The key `ab`, followed in memory by its NUL and one more byte, as an instance of
claim C7. -/
theorem getHashCodeByString_eq_upperFold_witness :
    strlen [97, 98, 0, 7] < 2 ^ 32 ∧
      (getHashCodeByString false [97, 98, 0, 7] = upperFold (keyBytes [97, 98, 0, 7]) ∧
        (keyBytes [97, 98, 0, 7] = [] → getHashCodeByString false [97, 98, 0, 7] = 0) ∧
        getHashCodeByString false [97, 98, 0, 7] < 2 ^ 32) :=
  ⟨by decide, getHashCodeByString_eq_upperFold false [97, 98, 0, 7] (by decide)⟩

/-- Claim C9: two keys of the same length below `2 ^ 32` that agree up to letter case
at every position but one, where the upper-case forms of their bytes differ, have
different hashes. -/
theorem getHashCodeByString_ne_of_one_byte (signedChar : Bool)
    (k₁ k₂ p₁ p₂ s₁ s₂ : List Byte) (a b : Byte)
    (h₁ : keyBytes k₁ = p₁ ++ a :: s₁) (h₂ : keyBytes k₂ = p₂ ++ b :: s₂)
    (hp : List.Forall₂ sameLetter p₁ p₂) (hs : List.Forall₂ sameLetter s₁ s₂)
    (hab : upperByte a ≠ upperByte b) (hlen : strlen k₁ < 2 ^ 32) :
    getHashCodeByString signedChar k₁ ≠ getHashCodeByString signedChar k₂ := by
  have hlen₂ : strlen k₂ < 2 ^ 32 := by
    rw [strlen_eq_length] at hlen ⊢
    rw [h₁] at hlen
    rw [h₂]
    simpa [hp.length_eq, hs.length_eq] using hlen
  rw [getHashCodeByString_of_lt signedChar k₁ hlen,
    getHashCodeByString_of_lt signedChar k₂ hlen₂, h₁, h₂, hashLoop_append, hashLoop_append,
    hashLoop_congr signedChar hp 0]
  show hashLoop signedChar (hashStep signedChar _ a) s₁
    ≠ hashLoop signedChar (hashStep signedChar _ b) s₂
  exact hashLoop_ne signedChar hs _ _ (hashStep_lt _ _ _) (hashStep_lt _ _ _)
    (hashStep_ne_of_upperByte_ne signedChar _ hab)

/-- The keys `bang` and `BoNG`, which differ beyond case at the second byte only, as an
instance of claim C9. -/
theorem getHashCodeByString_ne_of_one_byte_witness :
    (keyBytes [98, 97, 110, 103, 0] = [98] ++ 97 :: [110, 103] ∧
      keyBytes [66, 111, 78, 71, 0] = [66] ++ 111 :: [78, 71] ∧
      List.Forall₂ sameLetter [98] [66] ∧ List.Forall₂ sameLetter [110, 103] [78, 71] ∧
      upperByte 97 ≠ upperByte 111 ∧ strlen [98, 97, 110, 103, 0] < 2 ^ 32) ∧
    getHashCodeByString true [98, 97, 110, 103, 0]
      ≠ getHashCodeByString true [66, 111, 78, 71, 0] :=
  have hp : List.Forall₂ sameLetter [98] [66] :=
    List.Forall₂.cons (by decide) List.Forall₂.nil
  have hs : List.Forall₂ sameLetter [110, 103] [78, 71] :=
    List.Forall₂.cons (by decide) (List.Forall₂.cons (by decide) List.Forall₂.nil)
  ⟨⟨by decide, by decide, hp, hs, by decide, by decide⟩,
    getHashCodeByString_ne_of_one_byte true [98, 97, 110, 103, 0] [66, 111, 78, 71, 0]
      [98] [66] [110, 103] [78, 71] 97 111 (by decide) (by decide) hp hs
      (by decide) (by decide)⟩

/-- Claim C10: the hash starts from 0, so for a key of exactly one byte `c` it is the
upper-cased byte itself: it is below 256, and two one-byte keys have the same hash
if and only if their upper-case forms are equal. -/
theorem getHashCodeByString_single (signedChar : Bool) (k₁ k₂ : List Byte) (c d : Byte)
    (h₁ : keyBytes k₁ = [c]) (h₂ : keyBytes k₂ = [d]) :
    getHashCodeByString signedChar k₁ = (upperByte c).val ∧
      getHashCodeByString signedChar k₁ < 256 ∧
      (getHashCodeByString signedChar k₁ = getHashCodeByString signedChar k₂
        ↔ upperByte c = upperByte d) := by
  have key : ∀ (k : List Byte) (x : Byte), keyBytes k = [x] →
      getHashCodeByString signedChar k = (upperByte x).val := by
    intro k x hk
    have hl : strlen k < 2 ^ 32 := by
      rw [strlen_eq_length, hk]
      norm_num
    rw [getHashCodeByString_of_lt signedChar k hl, hk]
    show hashStep signedChar 0 x = _
    rw [hashStep_eq]
    simp
  rw [key k₁ c h₁, key k₂ d h₂]
  exact ⟨rfl, (upperByte c).isLt, ⟨fun h => Fin.ext h, fun h => congrArg _ h⟩⟩

/-- The one-byte keys `q` and `Q` as an instance of claim C10. -/
theorem getHashCodeByString_single_witness :
    (keyBytes [113, 0] = [113] ∧ keyBytes [81, 0] = [81]) ∧
    (getHashCodeByString false [113, 0] = (upperByte 113).val ∧
      getHashCodeByString false [113, 0] < 256 ∧
      (getHashCodeByString false [113, 0] = getHashCodeByString false [81, 0]
        ↔ upperByte 113 = upperByte 81)) :=
  ⟨⟨by decide, by decide⟩,
    getHashCodeByString_single false [113, 0] [81, 0] 113 81 (by decide) (by decide)⟩

/-- Claim C8: `getClassTypeInfo` returns the hash of the type name converted to `long`.
For a `long` of at least 32 bits the returned value is the one number in the range of
`long` that is congruent to the hash modulo `2 ^ longBits`: it is the hash itself when
`long` is wider than 32 bits or the hash is below `2 ^ 31`, and the hash less `2 ^ 32`
when `long` has 32 bits and the hash is `2 ^ 31` or more.  The value does not depend on
the engine the method is called on, and is unchanged when the type name is replaced by
one that differs only in letter case. -/
theorem getClassTypeInfo_eq {σ : Type} (signedChar : Bool) (longBits : Nat)
    (name₁ name₂ : List Byte) (self₁ self₂ : σ) (hbits : 32 ≤ longBits)
    (h : List.Forall₂ sameLetter (keyBytes name₁) (keyBytes name₂)) :
    SimpleAudioEngine.getClassTypeInfo signedChar longBits name₁ self₁
          % ((2 ^ longBits : Nat) : Int)
        = ((getHashCodeByString signedChar name₁ : Nat) : Int) ∧
      (-((2 ^ (longBits - 1) : Nat) : Int)
          ≤ SimpleAudioEngine.getClassTypeInfo signedChar longBits name₁ self₁ ∧
        SimpleAudioEngine.getClassTypeInfo signedChar longBits name₁ self₁
          < ((2 ^ (longBits - 1) : Nat) : Int)) ∧
      (32 < longBits ∨ getHashCodeByString signedChar name₁ < 2 ^ 31 →
        SimpleAudioEngine.getClassTypeInfo signedChar longBits name₁ self₁
          = ((getHashCodeByString signedChar name₁ : Nat) : Int)) ∧
      (longBits = 32 ∧ 2 ^ 31 ≤ getHashCodeByString signedChar name₁ →
        SimpleAudioEngine.getClassTypeInfo signedChar longBits name₁ self₁
          = ((getHashCodeByString signedChar name₁ : Nat) : Int) - 4294967296) ∧
      SimpleAudioEngine.getClassTypeInfo signedChar longBits name₁ self₁
        = SimpleAudioEngine.getClassTypeInfo signedChar longBits name₁ self₂ ∧
      SimpleAudioEngine.getClassTypeInfo signedChar longBits name₁ self₁
        = SimpleAudioEngine.getClassTypeInfo signedChar longBits name₂ self₂ := by
  have hlt := getHashCodeByString_lt signedChar name₁
  have hle : 2 ^ 32 ≤ 2 ^ longBits := Nat.pow_le_pow_right (by norm_num) hbits
  have hx : getHashCodeByString signedChar name₁ < 2 ^ longBits := lt_of_lt_of_le hlt hle
  refine ⟨?_, toLong_range longBits _ (le_trans (by norm_num) hbits), ?_, ?_, rfl, ?_⟩
  · exact toLong_emod longBits _ hx
  · intro hcase
    apply toLong_of_lt
    rcases hcase with hw | hs
    · exact lt_of_lt_of_le hlt (Nat.pow_le_pow_right (by norm_num) (by omega))
    · exact lt_of_lt_of_le hs (Nat.pow_le_pow_right (by norm_num) (by omega))
  · rintro ⟨hw, hs⟩
    subst hw
    unfold SimpleAudioEngine.getClassTypeInfo toLong
    rw [Nat.mod_eq_of_lt hlt, if_neg (by norm_num at hs ⊢; omega)]
    norm_num
  · unfold SimpleAudioEngine.getClassTypeInfo
    rw [getHashCodeByString_congr signedChar h]

/-- The Itanium type name and its upper-cased form, on two engines in different states,
with signed `char` and a `long` of 32 bits, as an instance of claim C8: the value
returned is 576288728, the hash of the name. -/
theorem getClassTypeInfo_eq_witness :
    (32 ≤ 32 ∧ List.Forall₂ sameLetter (keyBytes itaniumTypeName)
        (keyBytes (itaniumTypeName.map upperByte))) ∧
      getHashCodeByString true itaniumTypeName = 576288728 ∧
      SimpleAudioEngine.getClassTypeInfo true 32 itaniumTypeName (0 : Nat) = 576288728 ∧
      (SimpleAudioEngine.getClassTypeInfo true 32 itaniumTypeName (0 : Nat)
            % ((2 ^ 32 : Nat) : Int)
          = ((getHashCodeByString true itaniumTypeName : Nat) : Int) ∧
        (-((2 ^ (32 - 1) : Nat) : Int)
            ≤ SimpleAudioEngine.getClassTypeInfo true 32 itaniumTypeName (0 : Nat) ∧
          SimpleAudioEngine.getClassTypeInfo true 32 itaniumTypeName (0 : Nat)
            < ((2 ^ (32 - 1) : Nat) : Int)) ∧
        (32 < 32 ∨ getHashCodeByString true itaniumTypeName < 2 ^ 31 →
          SimpleAudioEngine.getClassTypeInfo true 32 itaniumTypeName (0 : Nat)
            = ((getHashCodeByString true itaniumTypeName : Nat) : Int)) ∧
        (32 = 32 ∧ 2 ^ 31 ≤ getHashCodeByString true itaniumTypeName →
          SimpleAudioEngine.getClassTypeInfo true 32 itaniumTypeName (0 : Nat)
            = ((getHashCodeByString true itaniumTypeName : Nat) : Int) - 4294967296) ∧
        SimpleAudioEngine.getClassTypeInfo true 32 itaniumTypeName (0 : Nat)
          = SimpleAudioEngine.getClassTypeInfo true 32 itaniumTypeName (7 : Nat) ∧
        SimpleAudioEngine.getClassTypeInfo true 32 itaniumTypeName (0 : Nat)
          = SimpleAudioEngine.getClassTypeInfo true 32
              (itaniumTypeName.map upperByte) (7 : Nat)) :=
  ⟨⟨le_refl 32, keyBytes_sameLetter (map_upperByte_sameLetter itaniumTypeName)⟩,
    by decide, by decide,
    getClassTypeInfo_eq true 32 itaniumTypeName (itaniumTypeName.map upperByte) 0 7
      (le_refl 32) (keyBytes_sameLetter (map_upperByte_sameLetter itaniumTypeName))⟩

/-! The properties of the inline overloads -/

/-- The `float` literals of the header denote one and zero. -/
theorem literal_values : (1.0 : CFloat) = 1 ∧ (0.0 : CFloat) = 0 := by
  norm_num

/-- Claim C2: for every path and loop flag, `playEffect(path, loop)` is one call of the
five-parameter `playEffect` with the same path and flag and with pitch 1.0, pan 0.0 and
gain 1.0, whose state and sound id it returns unchanged, whatever the backend; the
recording backend receives exactly that one call. -/
theorem playEffect2_forwards {σ : Type} (be : Backend σ) (pszFilePath : List Byte)
    (bLoop : Bool) (self : σ) (log : List Call) :
    SimpleAudioEngine.playEffect2 be pszFilePath bLoop self
        = be.playEffect pszFilePath bLoop 1.0 0.0 1.0 self ∧
      (SimpleAudioEngine.playEffect2 recorder pszFilePath bLoop log).2
        = log ++ [Call.playEffect pszFilePath bLoop 1.0 0.0 1.0] :=
  ⟨rfl, rfl⟩

/-- Claim C3: for every path, `playEffect(path)` has the effect and the sound id of the
five-parameter `playEffect(path, false, 1.0, 0.0, 1.0)`, whatever the backend: the effect
is played once, not looped, with pitch 1.0, pan 0.0 and gain 1.0. -/
theorem playEffect1_forwards {σ : Type} (be : Backend σ) (pszFilePath : List Byte)
    (self : σ) (log : List Call) :
    SimpleAudioEngine.playEffect1 be pszFilePath self
        = be.playEffect pszFilePath false 1.0 0.0 1.0 self ∧
      (SimpleAudioEngine.playEffect1 recorder pszFilePath log).2
        = log ++ [Call.playEffect pszFilePath false 1.0 0.0 1.0] :=
  ⟨rfl, rfl⟩

/-- Claim C4: for every path and engine state, `playBackgroundMusic(path)` is one call
of the two-parameter `playBackgroundMusic` with the same path and `bLoop = false`. -/
theorem playBackgroundMusic_forwards {σ : Type} (be : Backend σ)
    (pszFilePath : List Byte) (self : σ) (log : List Call) :
    SimpleAudioEngine.playBackgroundMusic be pszFilePath self
        = be.playBackgroundMusic pszFilePath false self ∧
      SimpleAudioEngine.playBackgroundMusic recorder pszFilePath log
        = log ++ [Call.playBackgroundMusic pszFilePath false] :=
  ⟨rfl, rfl⟩

/-- Claim C5: for every engine state, `stopBackgroundMusic()` is one call of the
one-parameter `stopBackgroundMusic` with `bReleaseData = false`. -/
theorem stopBackgroundMusic_forwards {σ : Type} (be : Backend σ) (self : σ)
    (log : List Call) :
    SimpleAudioEngine.stopBackgroundMusic be self = be.stopBackgroundMusic false self ∧
      SimpleAudioEngine.stopBackgroundMusic recorder log
        = log ++ [Call.stopBackgroundMusic false] :=
  ⟨rfl, rfl⟩

/-- Claim C6: `willPlayBackgroundMusic` returns true in every engine state, whatever
operations were called before it. -/
theorem willPlayBackgroundMusic_true {σ : Type} (ops : List (σ → σ)) (self : σ) :
    SimpleAudioEngine.willPlayBackgroundMusic (runOperations ops self) = true :=
  rfl

end CocosDenshion
